import Mathlib

/-!
# A verification development for the murmur time-series database

This file gives a shallow embedding, in Lean 4, of the core of `libmurmur.c`:
the on-disk data model (points, archives), the archive-spec parser and
validator, the point locator, the aggregator, and the write path with its
recursive propagation, together with theorems about those definitions.

Machine integers are modelled as `Nat` with explicit `% 2^w` at the places
where the C code performs wrapping unsigned arithmetic.  The C `double` values
that flow through the aggregator are modelled as `ℚ`; the `double → uint64_t`
conversion that happens when a value is written to disk is modelled as
truncation (`Int.toNat ∘ Int.floor`, identical to C truncation for the
non-negative values that occur here).  The shared file descriptor is modelled
by giving each archive its own slot list (`data`), mirroring the disjoint
regions that `murmur_create` lays out.
-/

namespace MurmurDB

/- The kernel happily evaluates rational arithmetic, but the elaborator's
evaluator stops at the `irreducible` core implementations; lifting that
barrier locally lets `decide` settle concrete scenarios. -/
attribute [local semireducible] Rat.mul Rat.inv Rat.add Rat.sub

/-- `struct point`: one 16-byte on-disk slot.  `interval` is the start of the
bucket the slot is for (0 means the slot is empty), `value` the stored 64-bit
word.  Both are big-endian `uint64_t` on disk; the codec is modelled away and
the decoded numbers kept. -/
structure Point where
  interval : Nat
  value : Nat
deriving DecidableEq

/-- The all-zero slot a freshly created archive region is filled with. -/
def emptyPoint : Point := ⟨0, 0⟩

/-- `enum aggregation_method` (values 1..5 in the C header). -/
inductive Agg where
  | average
  | sum
  | last
  | max
  | min
deriving DecidableEq

/-- `struct murmur_archive` as materialized by `murmur_open`, with the
archive's on-disk slot region carried as `data` (one `Point` per slot).
The `lower` pointer of the C struct is represented positionally: the archive
list of a `Murmur` is in on-disk order and each archive's `lower` is the next
list element (`None` for the last one), exactly as `murmur_open` links them. -/
structure MArchive where
  offset : Nat
  seconds_per_point : Nat
  points : Nat
  retention : Nat
  size : Nat
  data : List Point
deriving DecidableEq, Inhabited

/-- `struct murmur` (the in-memory handle built by `murmur_open`). -/
structure Murmur where
  aggregation : Agg
  max_retention : Nat
  x_files_factor : Nat
  archives : List MArchive
deriving DecidableEq

/-- The well-formedness facts that hold for every archive of a file produced
by `murmur_create` and read back by `murmur_open`:
positive precision and point count, `retention = seconds_per_point * points`
and `size = 16 * points` (computed by `murmur_open`), and a slot region of
exactly `points` slots. -/
def MArchive.WF (a : MArchive) : Prop :=
  0 < a.seconds_per_point ∧ 0 < a.points ∧
    a.retention = a.seconds_per_point * a.points ∧
    a.size = 16 * a.points ∧ a.data.length = a.points

instance (a : MArchive) : Decidable a.WF := by
  unfold MArchive.WF; infer_instance

/-- The `uint32_t diff = time(NULL) - timestamp` computation of
`_murmur_get_archive`: a 64-bit subtraction truncated to 32 bits, i.e. the
mathematical difference modulo `2^32`. -/
def diff32 (now t : Nat) : Nat := (((now : Int) - (t : Int)) % (2 ^ 32 : Int)).toNat

/-- `_murmur_get_archive`: reject when `diff > max_retention` or `diff <= 0`
(`diff` is unsigned, so the latter is `diff == 0`); otherwise walk the
archives finest-to-coarsest and stop at the first one whose `retention`
exceeds `diff`.  The C loop leaves `arch` pointing at the *last* archive when
no archive satisfies the test, which the model renders as `length - 1`.
Returns the index of the selected archive. -/
def getArchiveIdx (m : Murmur) (now t : Nat) : Option Nat :=
  let diff := diff32 now t
  if diff > m.max_retention then none
  else if diff = 0 then none
  else
    let j := m.archives.findIdx (fun a => decide (a.retention > diff))
    some (if j < m.archives.length then j else m.archives.length - 1)

/-- The bucket start computed by `_murmur_seek_to_point`:
`interval = timestamp - (timestamp % seconds_per_point)`. -/
def seekInterval (spp t : Nat) : Nat := t - t % spp

/-- The ring slot index computed by `_murmur_seek_to_point`:
`(interval % retention) / seconds_per_point` (unsigned arithmetic). -/
def slotIndex (a : MArchive) (t : Nat) : Nat :=
  seekInterval a.seconds_per_point t % a.retention / a.seconds_per_point

/-- The absolute file offset `_murmur_seek_to_point` seeks to:
`offset + sizeof(struct point) * slot`. -/
def pointOffset (a : MArchive) (t : Nat) : Nat :=
  a.offset + 16 * slotIndex a t

/-- The `double → uint64_t` conversion applied when `_murmur_arch_set` stores
a value (`htobe64(value)` with a `double` argument): truncation toward zero.
Every value reaching this conversion in the model is non-negative, where
truncation coincides with `Int.floor`; the `% 2^64` mirrors the width of the
stored word. -/
def u64OfVal (q : ℚ) : Nat := (Int.toNat ⌊q⌋) % 2 ^ 64

/-- Fold step used by the `average` and `sum` branches of `_murmur_aggregate`:
`val += be64toh((pointsv + i)->value)`. -/
def addValue (acc : ℚ) (p : Point) : ℚ := acc + (p.value : ℚ)

/-- State of the `last` branch of `_murmur_aggregate`:
`(last_interval, last_i, i)`.  The C code initializes
`last_interval = be64toh(pointsv->interval); last_i = 0` and then, for each
`i ≥ 1` with `l = interval(i)`, tests `l > last_interval` and on success
assigns `last_interval = i` (the loop *index*, faithfully reproducing the
source, which does not assign `l`) and `last_i = i`. -/
def lastStep (st : Nat × Nat × Nat) (p : Point) : Nat × Nat × Nat :=
  let li := st.1      -- last_interval
  let idx := st.2.1   -- last_i
  let i := st.2.2     -- loop counter
  if p.interval > li then (i, i, i + 1) else (li, idx, i + 1)

/-- `_murmur_aggregate`: folds the raw slot run read from disk (including
empty slots) into one value.  `pointsc` in the C signature is the length of
`w`; the C `double` arithmetic is carried out in `ℚ`.  An empty run (never
produced by the propagation path of a well-formed file, where the run has
exactly `k ≥ 1` slots) is given the value of `emptyPoint`. -/
def aggregate (agg : Agg) (w : List Point) : ℚ :=
  let p0 := w.headD emptyPoint
  let v0 : ℚ := (p0.value : ℚ)
  match agg with
  | .average => (w.tail.foldl addValue v0) / (w.length : ℚ)
  | .sum => w.tail.foldl addValue v0
  | .last =>
      let st := w.tail.foldl lastStep (p0.interval, 0, 1)
      ((w.getD st.2.1 emptyPoint).value : ℚ)
  | .max => w.tail.foldl (fun acc p => if (p.value : ℚ) > acc then (p.value : ℚ) else acc) v0
  | .min => w.tail.foldl (fun acc p => if (p.value : ℚ) < acc then (p.value : ℚ) else acc) v0

/-- The window read of `_murmur_propogate`: starting at `slot`, read `k`
slots; when `record_start + k*16` runs past the end of the archive region the
read is split, reading the tail of the region and then wrapping to its start
(`read(to_read)`, `lseek(arch->offset)`, `read(rest)`). -/
def windowAt (data : List Point) (slot k : Nat) : List Point :=
  if slot + k > data.length then
    data.drop slot ++ data.take (k - (data.length - slot))
  else
    (data.drop slot).take k

/-- The mutual recursion `_murmur_arch_set` / `_murmur_propogate`, expressed
on the suffix of the archive chain starting at the archive being written
(`lower` pointers are successive list elements, as `murmur_open` builds them):

* `_murmur_arch_set` seeks to the point of `t`, writes
  `(interval, htobe64(value))` into that slot, then calls
  `_murmur_propogate`;
* `_murmur_propogate` stops if there is no lower archive; otherwise it reads
  the `k = lower->seconds_per_point / arch->seconds_per_point` slot window
  starting at the slot of `t` (wrapping at the region end), aggregates it,
  and recurses into the lower archive with the aggregated value.

The slot update performed by one `_murmur_arch_set` level (seek to the point
of `t`, overwrite that slot with `(htobe64(interval), htobe64(value))`) is
split out as `writePoint`; `archSetProp` returns the updated archive suffix
together with the number of point writes performed (one
`write(fd, &pt, sizeof(pt))` per recursion level). -/
def writePoint (a : MArchive) (t : Nat) (v : ℚ) : MArchive :=
  { a with data := a.data.set (slotIndex a t) ⟨seekInterval a.seconds_per_point t, u64OfVal v⟩ }

/-- The recursion of `_murmur_arch_set` / `_murmur_propogate` itself; see the
comment above `writePoint`. -/
def archSetProp (agg : Agg) (t : Nat) (v : ℚ) : List MArchive → List MArchive × Nat
  | [] => ([], 0)
  | a :: rest =>
    let a2 := writePoint a t v
    match rest with
    | [] => ([a2], 1)
    | b :: r2 =>
      let k := b.seconds_per_point / a.seconds_per_point
      let val := aggregate agg (windowAt a2.data (slotIndex a t) k)
      let res := archSetProp agg t val (b :: r2)
      (a2 :: res.1, res.2 + 1)

/-- `murmur_set`: select the primary archive with `_murmur_get_archive`
(`none` = "could not locate suitable archive"), then run
`_murmur_arch_set` there.  The result carries the new file state and the
number of point writes performed. -/
def murmur_set (m : Murmur) (now t : Nat) (v : ℚ) : Option (Murmur × Nat) :=
  match getArchiveIdx m now t with
  | none => none
  | some i =>
    let res := archSetProp m.aggregation t v (m.archives.drop i)
    some ({ m with archives := m.archives.take i ++ res.1 }, res.2)

/-- `murmur_get`: select the primary archive with `_murmur_get_archive`, seek
to the point of `t`, read one slot and return its decoded `value` (the
`interval` field is not checked).  Returns the raw decoded 64-bit word. -/
def murmur_get (m : Murmur) (now t : Nat) : Option Nat :=
  match getArchiveIdx m now t with
  | none => none
  | some i =>
    let a := m.archives.getD i default
    some ((a.data.getD (slotIndex a t) emptyPoint).value)

/-- Modelled from the spec: the reader of §4.9 applied to an explicitly
chosen archive (`_murmur_arch_get` exists only in the repository's tests, not
in the library source under `src/`): use the locator of §4.6 on the given
archive, read one `Point` and return its decoded `value`. -/
def murmur_arch_get (a : MArchive) (t : Nat) : Nat :=
  (a.data.getD (slotIndex a t) emptyPoint).value

/-- A parsed archive spec (`struct archive_header` before offsets are
assigned): the two fields `_murmur_parse_archive_spec` fills in.  Both are
`uint32_t` in C; the parser model reduces them `% 2^32` at the store. -/
structure ArchSpec where
  seconds_per_point : Nat
  points : Nat
deriving DecidableEq

/-- Boolean prefix test on character lists;
`strstr(WORD, u) == WORD` in `_murmur_spec_to_seconds` holds exactly when `u`
occurs in `WORD` at position 0, i.e. when `u` is a prefix of `WORD`. -/
def isPrefLC : List Char → List Char → Bool
  | [], _ => true
  | _ :: _, [] => false
  | a :: as, b :: bs => a == b && isPrefLC as bs

/-- `_murmur_spec_to_seconds`: the unit string is first copied into a 7-byte
buffer (`strncpy` with length `0 < len < 7 ? len : 7`, so effectively the
first `min 7` characters at both call sites), then prefix-matched against the
unit words in source order.  Returns the multiplier applied to the parsed
number (`seconds` leaves it unchanged), `none` for an unknown unit. -/
def specToSeconds (u : List Char) : Option Nat :=
  let tu := u.take 7
  if isPrefLC tu "seconds".toList then some 1
  else if isPrefLC tu "minutes".toList then some 60
  else if isPrefLC tu "hours".toList then some (60 * 60)
  else if isPrefLC tu "days".toList then some (60 * 60 * 24)
  else if isPrefLC tu "weeks".toList then some (60 * 60 * 24 * 7)
  else if isPrefLC tu "years".toList then some (60 * 60 * 24 * 7 * 365)
  else none

/-- `LONG_MAX` on the LP64 targets the source builds for: `strtol` saturates
here on overflow. -/
def longMax : Nat := 2 ^ 63 - 1

/-- The `strtol(s, &end, 10)` calls of the parser, restricted to the
non-negative decimal numerals that archive spec tokens contain (no sign, no
leading whitespace): consume leading decimal digits, returning the
accumulated value and the unconsumed remainder (`end`).  When the input does
not start with a digit nothing is consumed and the value is 0, as in C; a
numeral exceeding `LONG_MAX` saturates to `LONG_MAX` (all digits are still
consumed), as `strtol` specifies.  The per-step clamp below equals clamping
the final value: once an intermediate value reaches `longMax` every later
step keeps it there, and no clamp fires on numerals that fit. -/
def takeDigits : List Char → Nat → Nat × List Char
  | [], acc => (acc, [])
  | c :: cs, acc =>
      if c.isDigit then takeDigits cs (min (acc * 10 + (c.toNat - 48)) longMax)
      else (acc, c :: cs)

/-- `strchr(curr, ':')`: split a token at its first colon; `none` when there
is no colon (a parse error in `_murmur_parse_archive_spec`). -/
def splitAtColon : List Char → Option (List Char × List Char)
  | [] => none
  | c :: cs =>
      if c = ':' then some ([], cs)
      else (splitAtColon cs).map fun p => (c :: p.1, p.2)

/-- The two `strtol` phases of `_murmur_parse_archive_spec`'s token loop,
applied to the characters on each side of the colon: parse the left number,
applying `_murmur_spec_to_seconds` when characters remain before the colon;
parse the right number, and when characters remain after it apply the unit
and divide by `seconds_per_point` (`points /= seconds_per_point`, a C `long`
division — undefined in C when `seconds_per_point` is 0, rendered as Lean's
`/ 0 = 0`).  The two results are stored into `uint32_t` fields, hence the
`% 2^32`. -/
def parseSides (left right : List Char) : Option ArchSpec :=
  match (if (takeDigits left 0).2.isEmpty then some (takeDigits left 0).1
         else (specToSeconds (takeDigits left 0).2).map
           fun mult => (takeDigits left 0).1 * mult : Option Nat) with
  | none => none
  | some spp =>
    match (if (takeDigits right 0).2.isEmpty then some (takeDigits right 0).1
           else (specToSeconds (takeDigits right 0).2).map
             fun mult => (takeDigits right 0).1 * mult / spp : Option Nat) with
    | none => none
    | some pts => some ⟨spp % 2 ^ 32, pts % 2 ^ 32⟩

/-- One iteration of `_murmur_parse_archive_spec`'s token loop: find the
colon (`strchr`; missing colon is an error), then run the two `strtol`
phases of `parseSides` on the pieces. -/
def parseToken (tok : List Char) : Option ArchSpec :=
  match splitAtColon tok with
  | none => none
  | some (left, right) => parseSides left right

/-- `_murmur_parse_archive_spec`: zero tokens is an error, and any token
failing to parse aborts the whole spec (`goto error`, count 0). -/
def parseArchiveSpec (toks : List (List Char)) : Option (List ArchSpec) :=
  if toks.isEmpty then none else toks.mapM parseToken

/-- The `uint32_t retention = spp * arch.points` products compared by the
validator: 32-bit multiplication, wrapping. -/
def retention32 (s : ArchSpec) : Nat := s.seconds_per_point * s.points % 2 ^ 32

/-- The adjacent-pair checks of `_murmur_validate_archives`, in source order:
equal precision; divisibility; retention ordering (on the wrapped 32-bit
products); consolidation feasibility. -/
def validPair (a b : ArchSpec) : Bool :=
  if a.seconds_per_point = b.seconds_per_point then false
  else if b.seconds_per_point % a.seconds_per_point ≠ 0 then false
  else if retention32 a > retention32 b then false
  else if a.points < b.seconds_per_point / a.seconds_per_point then false
  else true

/-- The loop of `_murmur_validate_archives` over adjacent pairs. -/
def validateAdj : List ArchSpec → Bool
  | a :: b :: rest => validPair a b && validateAdj (b :: rest)
  | _ => true

/-- `_murmur_validate_archives` applied to the (already sorted) archive
array: empty input is rejected, then every adjacent pair is checked. -/
def validateArchives (archs : List ArchSpec) : Bool :=
  if archs.isEmpty then false else validateAdj archs

/-- The `qsort` by `seconds_per_point` performed by
`_murmur_validate_archives`, modelled as a stable ascending insertion sort.
(The C comparator returns `(int)(a->spp - b->spp)`, equivalent to an
ascending comparison whenever the differences stay below `2^31`.) -/
def insertBySpp (a : ArchSpec) : List ArchSpec → List ArchSpec
  | [] => [a]
  | b :: bs =>
      if a.seconds_per_point ≤ b.seconds_per_point then a :: b :: bs
      else b :: insertBySpp a bs

/-- Sorting the parsed specs ascending by `seconds_per_point`. -/
def sortSpecs (l : List ArchSpec) : List ArchSpec := l.foldr insertBySpp []

/-- Big-endian byte image of a `uint32_t` (`htobe32`). -/
def be32 (n : Nat) : List Nat :=
  [n / 2 ^ 24 % 256, n / 2 ^ 16 % 256, n / 2 ^ 8 % 256, n % 256]

/-- Big-endian byte image of a `uint64_t` (`htobe64`). -/
def be64 (n : Nat) : List Nat :=
  [n / 2 ^ 56 % 256, n / 2 ^ 48 % 256, n / 2 ^ 40 % 256, n / 2 ^ 32 % 256,
   n / 2 ^ 24 % 256, n / 2 ^ 16 % 256, n / 2 ^ 8 % 256, n % 256]

/-- The 14-byte packed `struct murmur_header` written by `murmur_create`:
aggregation char (`aggregation == 0 ? average : aggregation`, `average = 1`),
`max_retention` big-endian, x-files factor char, archive count big-endian. -/
def headerBytes (aggNum xff maxRet count : Nat) : List Nat :=
  [if aggNum = 0 then 1 else aggNum % 256] ++ be64 maxRet ++ [xff % 256] ++ be32 count

/-- The offset/retention loop of `murmur_create`: starting at
`sizeof(header) + count * sizeof(archive_header) = 14 + 12*count`, assign
each archive its byte offset and advance by `points * 16` (the offset is a
`uint32_t`, hence the wrap), while accumulating
`max_retention = max over (uint32)(spp * points)`.
Returns (offset-annotated specs, final offset, max_retention). -/
def layoutArchives (specs : List ArchSpec) : List (Nat × ArchSpec) × Nat × Nat :=
  specs.foldl
    (fun st s =>
      let ret := s.seconds_per_point * s.points % 2 ^ 32
      (st.1 ++ [(st.2.1, s)], (st.2.1 + s.points * 16) % 2 ^ 32, Nat.max st.2.2 ret))
    ([], (14 + 12 * specs.length) % 2 ^ 32, 0)

/-- `murmur_create`, modelled over the state of the target path
(`none` = no file, `some bytes` = a file with those bytes):

1. `open(path, O_CREAT|O_WRONLY, ...)` — creates an *empty* file when none
   exists, and opens an existing file *without truncating it*;
2. parse the spec tokens and validate the sorted result; on failure return
   `-1` with the file exactly as `open` left it (nothing written);
3. otherwise write the header and the archive directory from position 0 over
   whatever bytes were there, then `fallocate` the slot area out to the final
   offset (extending a shorter file with zero bytes; a longer file keeps its
   trailing bytes).

Returns the status (`0` ok, `-1` error) and the resulting file state. -/
def murmur_create (pre : Option (List Nat)) (toks : List (List Char))
    (aggNum xff : Nat) : Int × Option (List Nat) :=
  let opened := pre.getD []
  match parseArchiveSpec toks with
  | none => (-1, some opened)
  | some specs =>
    let sorted := sortSpecs specs
    if validateArchives sorted = false then (-1, some opened)
    else
      let lay := layoutArchives sorted
      let dirBytes :=
        (lay.1.map fun p => be32 p.1 ++ be32 p.2.seconds_per_point ++ be32 p.2.points).flatten
      let written := headerBytes aggNum xff lay.2.2 sorted.length ++ dirBytes
      let afterWrite := written ++ opened.drop written.length
      let offsetEnd := lay.2.1
      let final :=
        if afterWrite.length < offsetEnd
        then afterWrite ++ List.replicate (offsetEnd - afterWrite.length) 0
        else afterWrite
      (0, some final)

/-- Archive 0 of the file created from `10s:1m, 1m:5m` (equivalently
`10s:60s, 60s:5m`) as `murmur_open` materializes it: 10 seconds per point,
6 slots, retention 60 s, region of 96 bytes at offset `14 + 2*12 = 38`,
all slots zero. -/
def testArch0 : MArchive :=
  ⟨38, 10, 6, 60, 96, List.replicate 6 emptyPoint⟩

/-- Archive 1 of the same file: 60 seconds per point, 5 slots, retention
300 s, 80 bytes at offset `38 + 96 = 134`, all slots zero. -/
def testArch1 : MArchive :=
  ⟨134, 60, 5, 300, 80, List.replicate 5 emptyPoint⟩

/-- The freshly created and opened two-archive test file (aggregation
`average`, x-files factor 0, `max_retention` 300). -/
def testFile : Murmur := ⟨.average, 300, 0, [testArch0, testArch1]⟩

/-- The same file created with `x_files_factor = 100`. -/
def testFileXff : Murmur := ⟨.average, 300, 100, [testArch0, testArch1]⟩

/-- The write sequence of the claimed T2 scenario: values 100..600 at
timestamps 1000, 990, …, 950. -/
def scenarioWrites : List (Nat × Nat) :=
  [(1000, 100), (990, 200), (980, 300), (970, 400), (960, 500), (950, 600)]

/-- The file state after issuing the T2 writes at `now = 1000` against the
fresh test file; a rejected `murmur_set` (which writes nothing) leaves the
state unchanged. -/
def scenarioState : Murmur :=
  scenarioWrites.foldl
    (fun s p =>
      match murmur_set s 1000 p.1 (p.2 : ℚ) with
      | none => s
      | some r => r.1)
    testFile

/-- Modelled from the spec's words (§3): an adjacent archive pair `(a, b)`
(`a` finer) violates one of V1–V4, with the retention comparison V3 on the
*exact* products `seconds_per_point * points`, as the spec and the claim
state it. -/
def claimViolation (a b : ArchSpec) : Prop :=
  a.seconds_per_point = b.seconds_per_point ∨
    ¬ b.seconds_per_point % a.seconds_per_point = 0 ∨
    a.seconds_per_point * a.points > b.seconds_per_point * b.points ∨
    a.points < b.seconds_per_point / a.seconds_per_point

instance (a b : ArchSpec) : Decidable (claimViolation a b) := by
  unfold claimViolation; infer_instance

/-- The amended form of the V1–V4 violation predicate: as `claimViolation`,
but with V3 compared on the 32-bit wrapped products, as
`_murmur_validate_archives` actually computes them. -/
def wrapViolation (a b : ArchSpec) : Prop :=
  a.seconds_per_point = b.seconds_per_point ∨
    ¬ b.seconds_per_point % a.seconds_per_point = 0 ∨
    retention32 a > retention32 b ∨
    a.points < b.seconds_per_point / a.seconds_per_point

instance (a b : ArchSpec) : Decidable (wrapViolation a b) := by
  unfold wrapViolation; infer_instance

/-- Modelled from the spec's words (§4.2): the unit table of the claim — a
non-empty prefix of one of `seconds`, `minutes`, `hours`, `days`, `weeks`,
`years` maps to the multiplier s=1, m=60, h=3600, d=86400, w=604800,
y=604800·365. -/
def unitValSpec (u : List Char) : Option Nat :=
  if u.isEmpty then none
  else if isPrefLC u "seconds".toList then some 1
  else if isPrefLC u "minutes".toList then some 60
  else if isPrefLC u "hours".toList then some 3600
  else if isPrefLC u "days".toList then some 86400
  else if isPrefLC u "weeks".toList then some 604800
  else if isPrefLC u "years".toList then some (604800 * 365)
  else none

/-- C2 (counterexample): in the claimed T2 scenario (archives 10s×6 and
60s×5, aggregation `average`, `x_files_factor` 0, writes of
100, 200, 300, 400, 500, 600 at t = 1000, 990, 980, 970, 960, 950 with
`now = 1000`), reading archive 1 at t = 1000 yields 233, not 350 as the
claim states — the very first write is already rejected (`diff = 0` counts
as "in the future"), and the coarser bucket read back at t = 1000 (bucket
start 960) was last propagated while slots 950 and 1000 of the finer window
were still empty, with the average truncated to an integer on store. -/
theorem c2_t2_scenario_counterexample :
    murmur_set testFile 1000 1000 (100 : ℚ) = none ∧
    murmur_arch_get (scenarioState.archives.getD 1 default) 1000 = 233 ∧
    ¬ murmur_arch_get (scenarioState.archives.getD 1 default) 1000 = 350 := by
  refine ⟨by decide, by decide, by decide⟩

/-- C3 (counterexample): the sorted spec pair `(1s × 3 points,
2s × 2³¹+1 points)` satisfies all of V1–V4 with exact arithmetic — so the
claim says `_murmur_validate_archives` accepts it — yet the validator
rejects it: it compares the retentions after 32-bit truncation
(`3 > (2·(2³¹+1)) mod 2³² = 2`). -/
theorem c3_validate_overflow_counterexample :
    validateArchives [⟨1, 3⟩, ⟨2, 2 ^ 31 + 1⟩] = false ∧
    sortSpecs [⟨1, 3⟩, ⟨2, 2 ^ 31 + 1⟩] = [⟨1, 3⟩, ⟨2, 2 ^ 31 + 1⟩] ∧
    ¬ claimViolation ⟨1, 3⟩ ⟨2, 2 ^ 31 + 1⟩ := by
  refine ⟨by decide, by decide, by decide⟩

/-- C4 (counterexample): on the test file (`max_retention = 300`, archive
retentions 60 and 300), a call with `diff = now - t = 300` is *not*
rejected, and the selected archive is the coarsest one even though **no**
archive has `retention > diff` — the C loop simply leaves `arch` pointing at
the last archive.  This contradicts the claim that a successful call always
targets an archive whose `retention > diff`. -/
theorem c4_boundary_counterexample :
    diff32 1000 700 = 300 ∧
    getArchiveIdx testFile 1000 700 = some 1 ∧
    ¬ murmur_set testFile 1000 700 (5 : ℚ) = none ∧
    ∀ a ∈ testFile.archives, ¬ a.retention > 300 := by
  refine ⟨by decide, by decide, by decide, by decide⟩

/-- C6: the claim (and the spec's §4.7) says the `last` aggregator returns
the value of the slot with the greatest decoded `interval`, ties to the
earliest slot.  The source assigns the loop *index* instead of the slot's
interval to `last_interval` (`last_interval = i;`), so on the run
`[(10, 1), (20, 2), (15, 3)]` it returns 3 (the value at index 2, whose
interval 15 exceeds the stale comparand 1) instead of the claimed 2 (the
value under the maximal interval 20).  The spec's §9 records this as a bug
in the source, so the claim is right and the code wrong. -/
theorem c6_agg_last_bug_eval :
    aggregate Agg.last [⟨10, 1⟩, ⟨20, 2⟩, ⟨15, 3⟩] = 3 ∧
    ¬ aggregate Agg.last [⟨10, 1⟩, ⟨20, 2⟩, ⟨15, 3⟩] = 2 := by
  refine ⟨by decide, by decide⟩

/-- C7: the claim (with the spec's §4.8 and the documentation of
`x_files_factor` in the C header) requires a propagation step to be skipped
when fewer than `ceil(k * x_files_factor / 100)` window slots are non-empty.
The source never consults `x_files_factor` on the propagation path: with
`x_files_factor = 100` and only 1 of the k = 6 window slots non-empty
(1 < 6 = ceil(6·100/100)), a single `murmur_set` still overwrites the
coarser bucket — slot 1 of archive 1 goes from empty to
`(960, 33)` (= trunc(200/6)). -/
theorem c7_xff_not_enforced_eval :
    testFileXff.x_files_factor = 100 ∧
    (murmur_set testFileXff 1000 990 (200 : ℚ)).map
        (fun r => (r.1.archives.getD 1 default).data.getD 1 emptyPoint) =
      some ⟨960, 33⟩ ∧
    (testFileXff.archives.getD 1 default).data.getD 1 emptyPoint = emptyPoint := by
  refine ⟨by decide, by decide, by decide⟩

/-- C8 (counterexample): `murmur_create` opens the target path with
`O_CREAT` *before* parsing the spec, so a configuration error (here the
unparseable token `"nocolon"`) still creates an empty file at a previously
non-existent path, contradicting the claim that no file is created. -/
theorem c8_create_error_creates_file_counterexample :
    (murmur_create none ["nocolon".toList] 1 50).1 = -1 ∧
    (murmur_create none ["nocolon".toList] 1 50).2 = some [] ∧
    ¬ (some ([] : List Nat) = none) := by
  refine ⟨by decide, by decide, by decide⟩

lemma slotIndex_lt_points (a : MArchive) (t : Nat) (h1 : 0 < a.seconds_per_point)
    (h2 : 0 < a.points) (h3 : a.retention = a.seconds_per_point * a.points) :
    slotIndex a t < a.points := by
  unfold slotIndex
  rw [h3]
  exact Nat.div_lt_of_lt_mul (Nat.mod_lt _ (Nat.mul_pos h1 h2))

/-- C5: for every archive with positive `seconds_per_point` and `points` and
`retention = seconds_per_point * points`, the locator's slot index
`(interval mod retention) / seconds_per_point` is strictly below `points`,
so the 16-byte point accessed at `offset + 16 * slot` lies entirely inside
the archive's region `[offset, offset + 16 * points)` — `murmur_get` never
touches bytes past the region the file reserves for the archive. -/
theorem c5_slot_in_bounds (a : MArchive) (t : Nat) (h1 : 0 < a.seconds_per_point)
    (h2 : 0 < a.points) (h3 : a.retention = a.seconds_per_point * a.points) :
    slotIndex a t < a.points ∧
      pointOffset a t + 16 ≤ a.offset + 16 * a.points := by
  have h := slotIndex_lt_points a t h1 h2 h3
  refine ⟨h, ?_⟩
  unfold pointOffset
  omega

/-- Witness for C5 at a concrete archive and timestamp. -/
theorem c5_slot_in_bounds_witness :
    slotIndex testArch0 12345 < testArch0.points ∧
      pointOffset testArch0 12345 + 16 ≤ testArch0.offset + 16 * testArch0.points :=
  c5_slot_in_bounds testArch0 12345 (by decide) (by decide) (by decide)

lemma archSetProp_count (agg : Agg) (t : Nat) :
    ∀ (l : List MArchive) (v : ℚ), (archSetProp agg t v l).2 = l.length := by
  intro l
  induction l with
  | nil => intro v; rfl
  | cons a rest ih =>
    intro v
    cases rest with
    | nil => rfl
    | cons b r2 => simp [archSetProp, ih]

/-- C10: every `murmur_set` call terminates after at most `archive_count`
point writes: the `_murmur_arch_set` / `_murmur_propogate` recursion steps
strictly down the finite `lower` chain (in the embedding, the archive-list
suffix), so the number of point writes it performs is bounded by the number
of archives.  (Termination itself is structural in the embedding, mirroring
the strictly shrinking chain built by `murmur_open`.) -/
theorem c10_set_write_count (m : Murmur) (now t : Nat) (v : ℚ) (r : Murmur × Nat)
    (h : murmur_set m now t v = some r) : r.2 ≤ m.archives.length := by
  unfold murmur_set at h
  cases hsel : getArchiveIdx m now t with
  | none => rw [hsel] at h; cases h
  | some i =>
    rw [hsel] at h
    simp only [Option.some.injEq] at h
    subst h
    simp only [archSetProp_count, List.length_drop]
    omega

/-- The concrete result of one `murmur_set` on the test file, for the C10
witness. -/
def c10WitPair : Murmur × Nat := (murmur_set testFile 1000 990 (5 : ℚ)).getD (testFile, 0)

/-- Witness for C10 at a concrete file and write. -/
theorem c10_set_write_count_witness : c10WitPair.2 ≤ testFile.archives.length :=
  c10_set_write_count testFile 1000 990 (5 : ℚ) c10WitPair (by decide)

/-- C8 (amended): when `murmur_create` hits a configuration error
(unparseable spec or invalid archive combination) it reports the error and
*writes nothing*: the bytes of a pre-existing file at the path are unchanged
— but, because the path is opened with `O_CREAT` before parsing, an empty
file is created (and remains) when the path did not previously exist. -/
theorem c8_create_config_error_preserves (pre : Option (List Nat))
    (toks : List (List Char)) (aggNum xff : Nat)
    (h : (murmur_create pre toks aggNum xff).1 = -1) :
    (murmur_create pre toks aggNum xff).2 = some (pre.getD []) := by
  unfold murmur_create at h ⊢
  cases hp : parseArchiveSpec toks with
  | none => simp [hp]
  | some specs =>
    by_cases hv : validateArchives (sortSpecs specs) = false
    · simp [hv]
    · rw [Bool.not_eq_false] at hv
      rw [hp] at h
      simp [hv] at h

/-- Witness for C8 at a concrete pre-existing file and bad spec. -/
theorem c8_create_config_error_preserves_witness :
    (murmur_create (some [7, 7, 7]) ["nocolon".toList] 1 50).2 =
      some ((some [7, 7, 7] : Option (List Nat)).getD []) :=
  c8_create_config_error_preserves (some [7, 7, 7]) ["nocolon".toList] 1 50 (by decide)

lemma validPair_iff (a b : ArchSpec) : validPair a b = true ↔ ¬ wrapViolation a b := by
  unfold validPair wrapViolation
  split_ifs with h1 h2 h3 h4 <;> simp_all

lemma validateAdj_iff :
    ∀ l : List ArchSpec, validateAdj l = true ↔ l.Chain' (fun a b => ¬ wrapViolation a b)
  | [] => by simp [validateAdj]
  | [a] => by simp [validateAdj]
  | a :: b :: rest => by
    rw [validateAdj, Bool.and_eq_true, validPair_iff, validateAdj_iff (b :: rest),
      List.chain'_cons]

/-- C3 (amended): `_murmur_validate_archives`, applied to the archive specs
sorted ascending by `seconds_per_point`, fails if and only if the spec list
is empty or some adjacent pair violates one of V1–V4, **with the V3
retention comparison performed on the 32-bit wrapped products
`(seconds_per_point * points) mod 2^32`** (the validator computes the
retentions in `uint32_t`); every non-empty sorted spec list all of whose
adjacent pairs satisfy the wrapped V1–V4 is accepted. -/
theorem c3_validate_iff_amended (archs : List ArchSpec) :
    validateArchives archs = true ↔
      archs ≠ [] ∧ archs.Chain' (fun a b => ¬ wrapViolation a b) := by
  cases archs with
  | nil => simp [validateArchives]
  | cons a rest =>
    rw [validateArchives]
    simp [validateAdj_iff]

/-- C4 (amended): for every `murmur_set`/`murmur_get` call on an open file,
with `diff` computed as the code computes it — `(now - t) mod 2^32` in
unsigned arithmetic — the call fails with a domain error (no archive
selected, both operations return an error) iff `diff = 0` (the unsigned
rendering of "`t` is not in the past") or `diff > max_retention`; otherwise
the targeted primary archive is the first one, finest-to-coarsest, whose
`retention > diff` when such an archive exists, **and the last (coarsest)
archive when none does** (which happens exactly when `diff = max_retention`
on a well-formed file).  In particular, with `max_retention = 300`,
`set(now + 1, v)` and `set(now - 600, v)` both fail with a domain error. -/
theorem c4_get_archive_characterization (m : Murmur) (now t : Nat)
    (hne : m.archives ≠ []) :
    (getArchiveIdx m now t = none ↔
      diff32 now t = 0 ∨ diff32 now t > m.max_retention) ∧
    (∀ i, getArchiveIdx m now t = some i →
      i < m.archives.length ∧
        (((m.archives.getD i default).retention > diff32 now t ∧
            ∀ j < i, ¬ (m.archives.getD j default).retention > diff32 now t) ∨
          (i = m.archives.length - 1 ∧
            ∀ j < m.archives.length,
              ¬ (m.archives.getD j default).retention > diff32 now t))) ∧
    (∀ v : ℚ, getArchiveIdx m now t = none →
      murmur_set m now t v = none ∧ murmur_get m now t = none) := by
  have hlen : 0 < m.archives.length := List.length_pos.mpr hne
  refine ⟨?_, ?_, ?_⟩
  · unfold getArchiveIdx
    by_cases h1 : diff32 now t > m.max_retention
    · simp [h1]
    · by_cases h2 : diff32 now t = 0 <;> simp [h1, h2]
  · intro i hi
    unfold getArchiveIdx at hi
    by_cases h1 : diff32 now t > m.max_retention
    · simp [h1] at hi
    · by_cases h2 : diff32 now t = 0
      · simp [h1, h2] at hi
      · simp only [h1, h2, if_neg, ite_false, if_false, Option.some.injEq] at hi
        set p : MArchive → Bool := fun a => decide (a.retention > diff32 now t) with hp
        by_cases hj : m.archives.findIdx p < m.archives.length
        · rw [if_pos hj] at hi
          subst hi
          refine ⟨hj, Or.inl ⟨?_, ?_⟩⟩
          · have := List.findIdx_getElem (w := hj)
            rw [List.getD_eq_getElem _ _ hj]
            simpa [hp] using this
          · intro j hjlt
            have hjl : j < m.archives.length := Nat.lt_trans hjlt hj
            have := List.not_of_lt_findIdx hjlt
            rw [List.getD_eq_getElem _ _ hjl]
            simpa [hp] using this
        · rw [if_neg hj] at hi
          subst hi
          have hfe : m.archives.findIdx p = m.archives.length :=
            Nat.le_antisymm (List.findIdx_le_length p) (Nat.le_of_not_lt hj)
          have hall := List.findIdx_eq_length.mp hfe
          refine ⟨by omega, Or.inr ⟨rfl, ?_⟩⟩
          intro j hjl
          have := hall (m.archives.get ⟨j, hjl⟩) (m.archives.get_mem _ _)
          rw [List.getD_eq_getElem _ _ hjl]
          simpa [hp, List.get_eq_getElem] using this
  · intro v hnone
    constructor
    · unfold murmur_set
      rw [hnone]
    · unfold murmur_get
      rw [hnone]

/-- Witness for C4 (amended) at a concrete file and timestamps: `now - t`
equal to 600 against `max_retention = 300` is rejected by both `murmur_set`
and `murmur_get`. -/
theorem c4_get_archive_characterization_witness :
    getArchiveIdx testFile 1000 400 = none ∧
      murmur_set testFile 1000 400 (1 : ℚ) = none ∧
      murmur_get testFile 1000 400 = none := by
  have h := c4_get_archive_characterization testFile 1000 400 (by decide)
  have hnone : getArchiveIdx testFile 1000 400 = none := by decide
  exact ⟨hnone, (h.2.2 1 hnone).1, (h.2.2 1 hnone).2⟩

lemma diff32_eq (now t : Nat) (h1 : t ≤ now) (h2 : now - t < 2 ^ 32) :
    diff32 now t = now - t := by
  unfold diff32
  omega

lemma archSetProp_map_retention (agg : Agg) (t : Nat) :
    ∀ (l : List MArchive) (v : ℚ),
      ((archSetProp agg t v l).1).map (fun a => a.retention) =
        l.map (fun a => a.retention) := by
  intro l
  induction l with
  | nil => intro v; rfl
  | cons a rest ih =>
    intro v
    cases rest with
    | nil => rfl
    | cons b r2 => simp [archSetProp, writePoint, ih]

lemma findIdx_retention_congr {l1 l2 : List MArchive}
    (h : l1.map (fun a => a.retention) = l2.map (fun a => a.retention)) (q : Nat → Bool) :
    l1.findIdx (fun a => q a.retention) = l2.findIdx (fun a => q a.retention) := by
  induction l1 generalizing l2 with
  | nil =>
    cases l2 with
    | nil => rfl
    | cons b bs => simp at h
  | cons a as ih =>
    cases l2 with
    | nil => simp at h
    | cons b bs =>
      simp only [List.map_cons, List.cons.injEq] at h
      rw [List.findIdx_cons, List.findIdx_cons, h.1, ih h.2]

lemma getArchiveIdx_congr (m m' : Murmur) (now t : Nat)
    (hmax : m'.max_retention = m.max_retention)
    (hmap : m'.archives.map (fun a => a.retention) = m.archives.map (fun a => a.retention)) :
    getArchiveIdx m' now t = getArchiveIdx m now t := by
  unfold getArchiveIdx
  have hlen : m'.archives.length = m.archives.length := by
    have := congrArg List.length hmap
    simpa using this
  have hfi := findIdx_retention_congr hmap (fun r => decide (r > diff32 now t))
  simp only [hmax, hlen, hfi]

lemma u64OfVal_natCast (v : Nat) (hv : v < 2 ^ 64) : u64OfVal (v : ℚ) = v := by
  unfold u64OfVal
  rw [Int.floor_natCast]
  simp only [Int.toNat_natCast]
  omega

/-- C1: on every open murmur file (well-formed archives), for every
timestamp with `0 < now - t ≤ max_retention` and every value `v`
representable as a 64-bit integer, `murmur_set(t, v)` immediately followed
by `murmur_get(t)` (same `now`, no intervening operation) succeeds and
returns exactly the stored word `v`, bit-for-bit: the primary write lands in
the selected archive's slot, the recursive propagation only touches coarser
archives, and the read decodes the very word the write encoded. -/
theorem c1_set_get_roundtrip (m : Murmur) (now t v : Nat)
    (hne : m.archives ≠ []) (hwf : ∀ a ∈ m.archives, a.WF)
    (hmr : m.max_retention < 2 ^ 32)
    (hpast : t < now) (hwin : now - t ≤ m.max_retention)
    (hv : v < 2 ^ 64) :
    ∃ r, murmur_set m now t (v : ℚ) = some r ∧ murmur_get r.1 now t = some v := by
  have hlen0 : 0 < m.archives.length := List.length_pos.mpr hne
  have hdiff : diff32 now t = now - t := diff32_eq now t (le_of_lt hpast) (by omega)
  have hdm : ¬ diff32 now t > m.max_retention := by rw [hdiff]; omega
  have hd0 : ¬ diff32 now t = 0 := by rw [hdiff]; omega
  obtain ⟨i, hsel, hilen⟩ :
      ∃ i, getArchiveIdx m now t = some i ∧ i < m.archives.length := by
    unfold getArchiveIdx
    rw [if_neg hdm, if_neg hd0]
    refine ⟨_, rfl, ?_⟩
    split_ifs with hj
    · exact hj
    · omega
  refine ⟨_, by unfold murmur_set; rw [hsel], ?_⟩
  set A := m.archives[i] with hA
  set vv : ℚ := (v : ℚ) with hvv
  set m' : Murmur :=
    { m with archives := m.archives.take i ++ (archSetProp m.aggregation t vv (m.archives.drop i)).1 }
    with hm'
  show murmur_get m' now t = some v
  have hmap : m'.archives.map (fun a => a.retention) = m.archives.map (fun a => a.retention) := by
    rw [hm']
    show (m.archives.take i ++ (archSetProp m.aggregation t vv (m.archives.drop i)).1).map _ = _
    rw [List.map_append, archSetProp_map_retention, ← List.map_append,
      List.take_append_drop]
  have hsel' : getArchiveIdx m' now t = some i := by
    rw [getArchiveIdx_congr m m' now t rfl hmap, hsel]
  obtain ⟨tl, htl⟩ :
      ∃ tl, (archSetProp m.aggregation t vv (m.archives.drop i)).1 =
        writePoint A t vv :: tl := by
    rw [List.drop_eq_getElem_cons hilen, ← hA]
    cases m.archives.drop (i + 1) with
    | nil => exact ⟨[], rfl⟩
    | cons b r2 => exact ⟨_, rfl⟩
  have htakelen : (m.archives.take i).length = i := List.length_take_of_le (le_of_lt hilen)
  have hgetD : m'.archives.getD i default = writePoint A t vv := by
    rw [hm']
    show (m.archives.take i ++ (archSetProp m.aggregation t vv (m.archives.drop i)).1).getD i default = _
    rw [htl]
    have hbound : i < (m.archives.take i ++ writePoint A t vv :: tl).length := by
      rw [List.length_append, htakelen]
      simp
    rw [List.getD_eq_getElem _ _ hbound, List.getElem_append_right (by omega)]
    simp [htakelen]
  have hAwf : A.WF := hwf A (List.getElem_mem hilen)
  obtain ⟨hspp, hpts, hret, hsize, hdata⟩ := hAwf
  have hslot : slotIndex A t < A.data.length := by
    rw [hdata]
    exact slotIndex_lt_points A t hspp hpts hret
  unfold murmur_get
  rw [hsel']
  show some (((m'.archives.getD i default).data.getD
      (slotIndex (m'.archives.getD i default) t) emptyPoint).value) = some v
  rw [hgetD]
  have hwp_data :
      (writePoint A t vv).data =
        A.data.set (slotIndex A t) ⟨seekInterval A.seconds_per_point t, u64OfVal vv⟩ := rfl
  have hwp_slot : slotIndex (writePoint A t vv) t = slotIndex A t := rfl
  simp only [hwp_slot, hwp_data]
  have hbound2 :
      slotIndex A t <
        (A.data.set (slotIndex A t)
          ⟨seekInterval A.seconds_per_point t, u64OfVal vv⟩).length := by
    rw [List.length_set]; exact hslot
  rw [List.getD_eq_getElem _ _ hbound2, List.getElem_set_self]
  rw [hvv, u64OfVal_natCast v hv]

/-- Witness for C1 on the concrete test file at `now = 1000`, `t = 990`,
`v = 12345`. -/
theorem c1_set_get_roundtrip_witness :
    ∃ r, murmur_set testFile 1000 990 ((12345 : Nat) : ℚ) = some r ∧
      murmur_get r.1 1000 990 = some 12345 :=
  c1_set_get_roundtrip testFile 1000 990 12345 (by decide) (by decide) (by decide)
    (by decide) (by decide) (by decide)


/-- C2 (amended): after `murmur_set` writes a point into primary archive A
(index `i`) and propagates into the adjacent coarser archive B (index
`i+1`), B's bucket covering the written timestamp holds exactly the
*integer truncation* of the file-wide aggregation method applied to the `k`
consecutive slots of A **starting at the slot of the written timestamp**
(wrapping at A's region end), empty slots included, with
`k = B.seconds_per_point / A.seconds_per_point`; equivalently, B is updated
exactly as `writePoint` updates it with that aggregate.  (In the concrete
T2 scenario the write at `t = now = 1000` is rejected and the claimed read
of archive 1 at t = 1000 yields 233, not 350; see the counterexample.) -/
theorem c2_propagate_window_amended (m : Murmur) (now t : Nat) (v : ℚ) (i : Nat)
    (hsel : getArchiveIdx m now t = some i) (hnext : i + 1 < m.archives.length) :
    ∃ r, murmur_set m now t v = some r ∧
      r.1.archives.getD (i + 1) default =
        writePoint (m.archives.getD (i + 1) default) t
          (aggregate m.aggregation
            (windowAt (writePoint (m.archives.getD i default) t v).data
              (slotIndex (m.archives.getD i default) t)
              ((m.archives.getD (i + 1) default).seconds_per_point /
                (m.archives.getD i default).seconds_per_point))) := by
  have hilen : i < m.archives.length := Nat.lt_of_succ_lt hnext
  have hAget : m.archives.getD i default = m.archives[i] :=
    List.getD_eq_getElem _ _ hilen
  have hBget : m.archives.getD (i + 1) default = m.archives[i + 1] :=
    List.getD_eq_getElem _ _ hnext
  unfold murmur_set
  rw [hsel]
  refine ⟨_, rfl, ?_⟩
  rw [hAget, hBget]
  set A := m.archives[i] with hA
  set B := m.archives[i + 1] with hB
  set valExpr :=
    aggregate m.aggregation
      (windowAt (writePoint A t v).data (slotIndex A t)
        (B.seconds_per_point / A.seconds_per_point)) with hval
  have hdropA : m.archives.drop i = A :: m.archives.drop (i + 1) :=
    List.drop_eq_getElem_cons hilen
  have hdropB : m.archives.drop (i + 1) = B :: m.archives.drop (i + 2) :=
    List.drop_eq_getElem_cons hnext
  obtain ⟨tl, htl⟩ :
      ∃ tl, (archSetProp m.aggregation t v (m.archives.drop i)).1 =
        writePoint A t v :: writePoint B t valExpr :: tl := by
    rw [hdropA, hdropB]
    cases m.archives.drop (i + 2) with
    | nil => exact ⟨[], rfl⟩
    | cons c r3 => exact ⟨_, rfl⟩
  have htakelen : (m.archives.take i).length = i :=
    List.length_take_of_le (le_of_lt hilen)
  show (m.archives.take i ++ (archSetProp m.aggregation t v (m.archives.drop i)).1).getD
      (i + 1) default = writePoint B t valExpr
  rw [htl]
  have hb : i + 1 <
      (m.archives.take i ++ writePoint A t v :: writePoint B t valExpr :: tl).length := by
    rw [List.length_append, htakelen]
    simp only [List.length_cons]
    omega
  rw [List.getD_eq_getElem _ _ hb, List.getElem_append_right (by omega)]
  simp [htakelen]

/-- Witness for C2 (amended) on the test file: the propagation of the write
at `t = 990` fills archive 1's bucket as the amended statement says. -/
theorem c2_propagate_window_amended_witness :
    ∃ r, murmur_set testFile 1000 990 (200 : ℚ) = some r ∧
      r.1.archives.getD 1 default =
        writePoint (testFile.archives.getD 1 default) 990
          (aggregate testFile.aggregation
            (windowAt (writePoint (testFile.archives.getD 0 default) 990 (200 : ℚ)).data
              (slotIndex (testFile.archives.getD 0 default) 990)
              ((testFile.archives.getD 1 default).seconds_per_point /
                (testFile.archives.getD 0 default).seconds_per_point))) :=
  c2_propagate_window_amended testFile 1000 990 (200 : ℚ) 0 (by decide) (by decide)


lemma isPrefLC_mem : ∀ u w : List Char, isPrefLC u w = true → ∀ c ∈ u, c ∈ w
  | [], _, _, c, hc => absurd hc (List.not_mem_nil c)
  | a :: as, [], h, _, _ => by cases h
  | a :: as, b :: bs, h, c, hc => by
    rw [isPrefLC, Bool.and_eq_true, beq_iff_eq] at h
    rcases List.mem_cons.mp hc with rfl | hc2
    · rw [h.1]; exact List.mem_cons_self b bs
    · exact List.mem_cons_of_mem b (isPrefLC_mem as bs h.2 c hc2)

lemma isPrefLC_length_le : ∀ u w : List Char, isPrefLC u w = true → u.length ≤ w.length
  | [], _, _ => Nat.zero_le _
  | a :: as, [], h => by cases h
  | a :: as, b :: bs, h => by
    rw [isPrefLC, Bool.and_eq_true] at h
    simpa using isPrefLC_length_le as bs h.2

lemma unitValSpec_char_prop {u : List Char} {m : Nat} (h : unitValSpec u = some m) :
    ∀ c ∈ u, c.isDigit = false ∧ ¬ c = ':' := by
  unfold unitValSpec at h
  split_ifs at h with h0 h1 h2 h3 h4 h5 h6
  · intro c hc
    exact (by decide : ∀ x ∈ "seconds".toList, x.isDigit = false ∧ ¬ x = ':') c
      (isPrefLC_mem _ _ h1 c hc)
  · intro c hc
    exact (by decide : ∀ x ∈ "minutes".toList, x.isDigit = false ∧ ¬ x = ':') c
      (isPrefLC_mem _ _ h2 c hc)
  · intro c hc
    exact (by decide : ∀ x ∈ "hours".toList, x.isDigit = false ∧ ¬ x = ':') c
      (isPrefLC_mem _ _ h3 c hc)
  · intro c hc
    exact (by decide : ∀ x ∈ "days".toList, x.isDigit = false ∧ ¬ x = ':') c
      (isPrefLC_mem _ _ h4 c hc)
  · intro c hc
    exact (by decide : ∀ x ∈ "weeks".toList, x.isDigit = false ∧ ¬ x = ':') c
      (isPrefLC_mem _ _ h5 c hc)
  · intro c hc
    exact (by decide : ∀ x ∈ "years".toList, x.isDigit = false ∧ ¬ x = ':') c
      (isPrefLC_mem _ _ h6 c hc)

lemma specToSeconds_eq_unitValSpec (u : List Char) (hne : u ≠ []) (hlen : u.length ≤ 7) :
    specToSeconds u = unitValSpec u := by
  unfold specToSeconds unitValSpec
  rw [List.take_of_length_le hlen, if_neg (show ¬ (u.isEmpty = true) by simp [hne])]

lemma specToSeconds_of_unitValSpec {u : List Char} {m : Nat} (h : unitValSpec u = some m) :
    specToSeconds u = some m := by
  have hne : u ≠ [] := by
    intro he
    subst he
    simp [unitValSpec] at h
  have hlen : u.length ≤ 7 := by
    unfold unitValSpec at h
    split_ifs at h with h0 h1 h2 h3 h4 h5 h6
    · exact le_trans (isPrefLC_length_le _ _ h1) (by decide)
    · exact le_trans (isPrefLC_length_le _ _ h2) (by decide)
    · exact le_trans (isPrefLC_length_le _ _ h3) (by decide)
    · exact le_trans (isPrefLC_length_le _ _ h4) (by decide)
    · exact le_trans (isPrefLC_length_le _ _ h5) (by decide)
    · exact le_trans (isPrefLC_length_le _ _ h6) (by decide)
  rw [specToSeconds_eq_unitValSpec u hne hlen, h]

lemma takeDigits_append (ds rest : List Char) (acc : Nat)
    (h1 : ∀ c ∈ ds, c.isDigit) (h2 : rest.head?.all (fun c => !c.isDigit) = true) :
    takeDigits (ds ++ rest) acc = ((takeDigits ds acc).1, rest) := by
  induction ds generalizing acc with
  | nil =>
    cases rest with
    | nil => rfl
    | cons c cs =>
      simp only [Option.all_some, List.head?_cons, Bool.not_eq_true'] at h2
      simp [takeDigits, h2]
  | cons d ds2 ih =>
    have hd : d.isDigit = true := h1 d (List.mem_cons_self d ds2)
    simp only [List.cons_append, takeDigits, hd, if_true]
    exact ih _ (fun c hc => h1 c (List.mem_cons_of_mem d hc))

lemma splitAtColon_append : ∀ (xs rest : List Char), (':' ∉ xs) →
    splitAtColon (xs ++ ':' :: rest) = some (xs, rest)
  | [], rest, _ => by simp [splitAtColon]
  | x :: xs2, rest, h => by
    have hx : ¬ x = ':' := fun he => h (he ▸ List.mem_cons_self x xs2)
    simp only [List.cons_append, splitAtColon, if_neg hx, List.append_eq,
      splitAtColon_append xs2 rest (fun hm => h (List.mem_cons_of_mem x hm)),
      Option.map_some']

/-- C9: for every archive spec token of shape `PRECISION:RETENTION` (a digit
run with an optional unit on each side, the unit a non-empty prefix of one
of the spec's six unit words), the parser produces `seconds_per_point` from
the left side using the multipliers s=1, m=60, h=3600, d=86400, w=604800,
y=604800·365 (a missing left unit means seconds), and a point count that is
the retention in seconds divided by `seconds_per_point` (integer division)
when a right unit is given, or the bare number when it is not; in
particular `10s:60` yields 60 points and `10s:60s` yields 6.  The numeral
values themselves saturate at `LONG_MAX` as `strtol` specifies; the
hypotheses `hpos`, `hb1` and `hb2` confine the statement to the domain
where the C is defined at all — a non-zero divisor for
`points /= seconds_per_point` and unit multiplications that do not overflow
the signed `long`. -/
theorem c9_parse_token_semantics
    (ds rs pu ru : List Char) (mp mr : Nat)
    (hds : ds ≠ []) (hdsd : ∀ c ∈ ds, c.isDigit)
    (hrs : rs ≠ []) (hrsd : ∀ c ∈ rs, c.isDigit)
    (hpu : (pu = [] ∧ mp = 1) ∨ unitValSpec pu = some mp)
    (hru : unitValSpec ru = some mr)
    (hpos : 0 < (takeDigits ds 0).1 * mp)
    (hb1 : (takeDigits ds 0).1 * mp < 2 ^ 63)
    (hb2 : (takeDigits rs 0).1 * mr < 2 ^ 63) :
    parseToken (ds ++ pu ++ [':'] ++ rs) =
      some ⟨(takeDigits ds 0).1 * mp % 2 ^ 32, (takeDigits rs 0).1 % 2 ^ 32⟩ ∧
      parseToken (ds ++ pu ++ [':'] ++ rs ++ ru) =
        some ⟨(takeDigits ds 0).1 * mp % 2 ^ 32,
          (takeDigits rs 0).1 * mr / ((takeDigits ds 0).1 * mp) % 2 ^ 32⟩ := by
  have hcol : ':' ∉ ds ++ pu := by
    intro hm
    rcases List.mem_append.mp hm with hm1 | hm2
    · exact absurd (hdsd _ hm1) (by decide)
    · rcases hpu with ⟨rfl, _⟩ | hposu
      · exact absurd hm2 (List.not_mem_nil _)
      · exact (unitValSpec_char_prop hposu _ hm2).2 rfl
  have hpu_head : pu.head?.all (fun c => !c.isDigit) = true := by
    rcases hpu with ⟨rfl, _⟩ | hposu
    · rfl
    · cases pu with
      | nil => rfl
      | cons c cs =>
        simp [(unitValSpec_char_prop hposu c (List.mem_cons_self c cs)).1]
  have hru_head : ru.head?.all (fun c => !c.isDigit) = true := by
    cases ru with
    | nil => rfl
    | cons c cs =>
      simp [(unitValSpec_char_prop hru c (List.mem_cons_self c cs)).1]
  have hleft : takeDigits (ds ++ pu) 0 = ((takeDigits ds 0).1, pu) :=
    takeDigits_append ds pu 0 hdsd hpu_head
  obtain ⟨v2, hv2⟩ : ∃ v2, takeDigits rs 0 = (v2, ([] : List Char)) :=
    ⟨(takeDigits rs 0).1, by simpa using takeDigits_append rs [] 0 hrsd rfl⟩
  have hv2v : (takeDigits rs 0).1 = v2 := by rw [hv2]
  have hrs_ru : takeDigits (rs ++ ru) 0 = (v2, ru) := by
    rw [takeDigits_append rs ru 0 hrsd hru_head, hv2v]
  have hspp :
      (if (takeDigits (ds ++ pu) 0).2.isEmpty then some (takeDigits (ds ++ pu) 0).1
       else (specToSeconds (takeDigits (ds ++ pu) 0).2).map
         fun mult => (takeDigits (ds ++ pu) 0).1 * mult) =
        some ((takeDigits ds 0).1 * mp) := by
    rw [hleft]
    rcases hpu with ⟨rfl, hmp⟩ | hposu
    · simp [hmp]
    · have hne : pu ≠ [] := by
        intro he
        subst he
        simp [unitValSpec] at hposu
      have hie : pu.isEmpty = false := by simp [hne]
      simp [hie, specToSeconds_of_unitValSpec hposu]
  constructor
  · have hsplit : splitAtColon (ds ++ pu ++ [':'] ++ rs) = some (ds ++ pu, rs) := by
      have he : ds ++ pu ++ [':'] ++ rs = (ds ++ pu) ++ ':' :: rs := by simp
      rw [he, splitAtColon_append (ds ++ pu) rs hcol]
    unfold parseToken
    rw [hsplit]
    show parseSides (ds ++ pu) rs = _
    unfold parseSides
    rw [hspp, hv2]
    simp
  · have hsplit : splitAtColon (ds ++ pu ++ [':'] ++ rs ++ ru) = some (ds ++ pu, rs ++ ru) := by
      have he : ds ++ pu ++ [':'] ++ rs ++ ru = (ds ++ pu) ++ ':' :: (rs ++ ru) := by simp
      rw [he, splitAtColon_append (ds ++ pu) (rs ++ ru) hcol]
    unfold parseToken
    rw [hsplit]
    show parseSides (ds ++ pu) (rs ++ ru) = _
    unfold parseSides
    rw [hspp, hrs_ru, hv2v]
    have hrune : ru ≠ [] := by
      intro he
      subst he
      simp [unitValSpec] at hru
    have hie : ru.isEmpty = false := by simp [hrune]
    simp [hie, specToSeconds_of_unitValSpec hru]

/-- Witness for C9 at the claim's own example: `10s:60` parses to 60
points, `10s:60s` to 6 points (both with `seconds_per_point = 10`). -/
theorem c9_parse_token_semantics_witness :
    parseToken (['1', '0'] ++ ['s'] ++ [':'] ++ ['6', '0']) =
      some ⟨(takeDigits ['1', '0'] 0).1 * 1 % 2 ^ 32, (takeDigits ['6', '0'] 0).1 % 2 ^ 32⟩ ∧
      parseToken (['1', '0'] ++ ['s'] ++ [':'] ++ ['6', '0'] ++ ['s']) =
        some ⟨(takeDigits ['1', '0'] 0).1 * 1 % 2 ^ 32,
          (takeDigits ['6', '0'] 0).1 * 1 / ((takeDigits ['1', '0'] 0).1 * 1) % 2 ^ 32⟩ :=
  c9_parse_token_semantics ['1', '0'] ['6', '0'] ['s'] ['s'] 1 1 (by decide) (by decide)
    (by decide) (by decide) (Or.inr (by decide)) (by decide) (by decide) (by decide)
    (by decide)

end MurmurDB
